import Mathlib

/-!
# Verification of the gigue binary generator's specification

Shallow embedding of the gigue RISC-V synthetic binary generator
(instruction builder, generator pipeline) with theorems checking the
specification's claims against the code.
-/

namespace Gigue

/-! ## Offset splitting (builder.py, InstructionBuilder.split_offset)

Python source works on arbitrary-precision integers with two's-complement
bitwise semantics.  The bitmask expressions are translated to exact
modular arithmetic:
  `offset & 0xFFF       = offset % 0x1000`
  `offset & 0xFFFFF000  = offset % 0x100000000 - offset % 0x1000`
  `offset & 0x800       = offset % 0x1000 - offset % 0x800`
(all three identities are exact for every integer, positive or negative,
 under Python's infinite two's-complement `&` and Lean's `Int.emod`). -/

/-- `InstructionBuilder.split_offset` (builder.py:67-83).  Raises
`WrongOffsetException` (modelled as `none`) when `abs(offset) < 8`,
otherwise returns `(offset_low, offset_high)` where
`offset_low = offset & 0xFFF` and
`offset_high = (offset & 0xFFFFF000) + ((offset & 0x800) << 1)`. -/
def split_offset (offset : Int) : Option (Int × Int) :=
  if offset.natAbs < 8 then
    none
  else
    let offset_low := offset % 0x1000
    let offset_high :=
      (offset % 0x100000000 - offset % 0x1000) +
        (offset % 0x1000 - offset % 0x800) * 2
    some (offset_low, offset_high)

/-- Sign extension of the low `w` bits of an integer, the semantics the
RISC-V hardware applies to a `w`-bit immediate field. -/
def sext (w : Nat) (x : Int) : Int :=
  (x + 2 ^ (w - 1)) % 2 ^ w - 2 ^ (w - 1)

/-- The value an `auipc (offset_high)` + `jalr (offset_low)` pair adds to
the `pc`: the low 32 bits of `offset_high` sign-extended (`auipc`'s
U-immediate semantics), plus the low 12 bits of `offset_low`
sign-extended (`jalr`'s I-immediate semantics). -/
def recombine_offset (offset_low offset_high : Int) : Int :=
  sext 12 offset_low + sext 32 offset_high

/-- C1 (counterexample): the offset `0x7FFFF800` lies in `[-2^31, 2^31)`
with `|offset| ≥ 8`, yet sign-extending the low part and adding the high
part per `auipc`+`jalr` semantics yields `-2^31 - 0x800`, not the
original offset: the split-recombination claim fails on the top
`2^11`-sized slice of the positive range, where the `+0x1000` sign-fix
carries into bit 31 and `auipc`'s sign extension flips the value. -/
theorem split_offset_top_slice_wrong :
    (-(2 ^ 31) ≤ (0x7FFFF800 : Int) ∧ (0x7FFFF800 : Int) < 2 ^ 31 ∧
      8 ≤ (0x7FFFF800 : Int).natAbs) ∧
    split_offset 0x7FFFF800 = some (0x800, 0x80000000) ∧
    recombine_offset 0x800 0x80000000 = -(2 ^ 31) - 0x800 ∧
    recombine_offset 0x800 0x80000000 ≠ 0x7FFFF800 := by decide

/-- C1 (amended): for every offset in `[-2^31, 2^31 - 2^11)` with
`|offset| ≥ 8`, `split_offset` returns
`(offset & 0xFFF, (offset & 0xFFFFF000) + ((offset & 0x800) << 1))`
(written in the equivalent modular-arithmetic form), and sign-extending
the low 12 bits plus the sign-extended low 32 bits of the high part
(`auipc`+`jalr` semantics) recovers the offset exactly; every offset
with `|offset| < 8` raises `WrongOffset` (returns `none`); and
`split_offset 0x12345 = (0x345, 0x12000)`,
`split_offset 0x800 = (0x800, 0x1000)`. -/
theorem split_offset_correct (offset : Int)
    (h1 : -(2 ^ 31) ≤ offset) (h2 : offset < 2 ^ 31 - 2 ^ 11)
    (h3 : 8 ≤ offset.natAbs) :
    split_offset offset =
      some (offset % 0x1000,
        (offset % 0x100000000 - offset % 0x1000) +
          (offset % 0x1000 - offset % 0x800) * 2) ∧
    recombine_offset (offset % 0x1000)
      ((offset % 0x100000000 - offset % 0x1000) +
        (offset % 0x1000 - offset % 0x800) * 2) = offset ∧
    (∀ o : Int, o.natAbs < 8 → split_offset o = none) ∧
    split_offset 0x12345 = some (0x345, 0x12000) ∧
    split_offset 0x800 = some (0x800, 0x1000) := by
  refine ⟨?_, ?_, ?_, by decide, by decide⟩
  · unfold split_offset
    rw [if_neg (by omega)]
  · unfold recombine_offset sext
    omega
  · intro o ho
    unfold split_offset
    rw [if_pos ho]

/-- Witness for `split_offset_correct` at `offset = 0x12345`. -/
theorem split_offset_correct_witness :
    (-(2 ^ 31) ≤ (0x12345 : Int) ∧ (0x12345 : Int) < 2 ^ 31 - 2 ^ 11 ∧
      8 ≤ (0x12345 : Int).natAbs) ∧
    (split_offset 0x12345 =
      some ((0x12345 : Int) % 0x1000,
        ((0x12345 : Int) % 0x100000000 - (0x12345 : Int) % 0x1000) +
          ((0x12345 : Int) % 0x1000 - (0x12345 : Int) % 0x800) * 2) ∧
    recombine_offset ((0x12345 : Int) % 0x1000)
      (((0x12345 : Int) % 0x100000000 - (0x12345 : Int) % 0x1000) +
        ((0x12345 : Int) % 0x1000 - (0x12345 : Int) % 0x800) * 2) = 0x12345 ∧
    (∀ o : Int, o.natAbs < 8 → split_offset o = none) ∧
    split_offset 0x12345 = some (0x345, 0x12000) ∧
    split_offset 0x800 = some (0x800, 0x1000)) :=
  ⟨by decide, split_offset_correct 0x12345 (by decide) (by decide) (by decide)⟩

/-! ## Random jump/branch offsets (builder.py, InstructionBuilder.size_offset) -/

/-- `InstructionBuilder.size_offset` (builder.py:153-160): the candidate
set for random jump/branch offsets, starting from `{4, max_offset}`,
adding `i * 12 + max_offset % 12` for `i` in `range(1, max_offset // 12 + 1)`,
and `8` when `max_offset % 12 == 8`. -/
def size_offset (max_offset : Nat) : Finset Nat :=
  ({4, max_offset} : Finset Nat) ∪
    (Finset.range (max_offset / 12)).image
      (fun i => (i + 1) * 12 + max_offset % 12) ∪
    (if max_offset % 12 = 8 then {8} else ∅)

/-- The candidate set exactly as the specification words it:
`{4, max_offset} ∪ {k*12 + (max_offset mod 12) : 1 ≤ k ≤ max_offset/12}
 ∪ ({8} if max_offset mod 12 == 8)`. -/
def size_offset_spec_set (max_offset x : Nat) : Prop :=
  x = 4 ∨ x = max_offset ∨
    (∃ k, 1 ≤ k ∧ k ≤ max_offset / 12 ∧ x = k * 12 + max_offset % 12) ∨
    (max_offset % 12 = 8 ∧ x = 8)

/-- C7: for every positive `max_offset` that is a multiple of 4,
`size_offset max_offset` is exactly the set described by the
specification, and every element of it is a positive multiple of 4 that
does not exceed `max_offset`. -/
theorem size_offset_correct (max_offset : Nat)
    (hpos : 0 < max_offset) (hdvd : 4 ∣ max_offset) :
    (∀ x, x ∈ size_offset max_offset ↔ size_offset_spec_set max_offset x) ∧
    (∀ x ∈ size_offset max_offset, 0 < x ∧ 4 ∣ x ∧ x ≤ max_offset) := by
  have hmem : ∀ x, x ∈ size_offset max_offset ↔
      size_offset_spec_set max_offset x := by
    intro x
    unfold size_offset size_offset_spec_set
    constructor
    · intro hx
      rcases Finset.mem_union.mp hx with hx | hx
      · rcases Finset.mem_union.mp hx with hx | hx
        · rcases Finset.mem_insert.mp hx with hx | hx
          · exact Or.inl hx
          · exact Or.inr (Or.inl (Finset.mem_singleton.mp hx))
        · rcases Finset.mem_image.mp hx with ⟨i, hi, hix⟩
          have hi' := Finset.mem_range.mp hi
          exact Or.inr (Or.inr (Or.inl ⟨i + 1, by omega, by omega, hix.symm⟩))
      · by_cases h8 : max_offset % 12 = 8
        · rw [if_pos h8] at hx
          exact Or.inr (Or.inr (Or.inr ⟨h8, Finset.mem_singleton.mp hx⟩))
        · rw [if_neg h8] at hx
          exact absurd hx (Finset.not_mem_empty x)
    · intro hx
      rcases hx with hx | hx | ⟨k, hk1, hk2, hkx⟩ | ⟨h8, hx⟩
      · exact Finset.mem_union.mpr (Or.inl (Finset.mem_union.mpr
          (Or.inl (Finset.mem_insert.mpr (Or.inl hx)))))
      · exact Finset.mem_union.mpr (Or.inl (Finset.mem_union.mpr
          (Or.inl (Finset.mem_insert.mpr (Or.inr
            (Finset.mem_singleton.mpr hx))))))
      · refine Finset.mem_union.mpr (Or.inl (Finset.mem_union.mpr
          (Or.inr (Finset.mem_image.mpr ⟨k - 1, Finset.mem_range.mpr
            (by omega), by omega⟩))))
      · rw [if_pos h8]
        exact Finset.mem_union.mpr (Or.inr (Finset.mem_singleton.mpr hx))
  refine ⟨hmem, ?_⟩
  intro x hx
  rcases (hmem x).mp hx with hx | hx | ⟨k, hk1, hk2, hkx⟩ | ⟨h8, hx⟩
  · subst hx; exact ⟨by omega, by omega, by omega⟩
  · subst hx; exact ⟨hpos, hdvd, le_refl _⟩
  · subst hkx
    refine ⟨by omega, ?_, by omega⟩
    have : 4 ∣ max_offset % 12 := by omega
    omega
  · subst hx; exact ⟨by omega, by omega, by omega⟩

/-- Witness for `size_offset_correct` at `max_offset = 32`. -/
theorem size_offset_correct_witness :
    (0 < 32 ∧ 4 ∣ 32) ∧
    ((∀ x, x ∈ size_offset 32 ↔ size_offset_spec_set 32 x) ∧
      (∀ x ∈ size_offset 32, 0 < x ∧ 4 ∣ x ∧ x ≤ 32)) :=
  ⟨by decide, size_offset_correct 32 (by decide) (by decide)⟩

/-! ## Random store/load instructions (builder.py)

Randomness is modelled by passing the draws of `random.choice` /
`random.randint` as explicit parameters: an index draw is reduced
modulo the collection size, an integer draw modulo the (inclusive)
range size, so every parameter value corresponds to a value the
Python random source can produce and vice versa. -/

/-- `InstructionBuilder.S_INSTRUCTIONS` (builder.py:50). -/
def S_INSTRUCTIONS : List String := ["sb", "sd", "sh", "sw"]

/-- `InstructionBuilder.I_INSTRUCTIONS_LOAD` (builder.py:48). -/
def I_INSTRUCTIONS_LOAD : List String := ["lb", "lbu", "ld", "lh", "lhu"]

/-- `InstructionBuilder.ALIGNMENT` (builder.py:53-58), in insertion
order as iterated by `define_memory_access_alignment`. -/
def ALIGNMENT : List (Char × Nat) := [('b', 1), ('h', 2), ('w', 4), ('d', 8)]

/-- `InstructionBuilder.define_memory_access_alignment` (builder.py:85-89):
returns the alignment of the first `ALIGNMENT` key contained in the
instruction name (`None`, i.e. `none`, if no key matches).  Python's
`key in name` is a substring test; every key is a single character, so
it is a membership test on the name's characters. -/
def define_memory_access_alignment (name : String) : Option Nat :=
  (ALIGNMENT.find? (fun p => name.data.contains p.1)).map (fun p => p.2)

/-- Modelled from the spec: `helpers.align` (helpers.py is not in src/).
Per §4.2 store/load immediates are drawn from
`[0, min(data_size, 0x7FF)]` then aligned to the access width while
remaining in that interval, and §3/§6 require 4-byte-aligned addresses
obtained by aligning; rounding down to a multiple of the alignment is
the operation consistent with both uses. -/
def align (value alignment : Nat) : Nat := value / alignment * alignment

/-- An S-type store instruction as produced by the builder: mnemonic,
base register `rs1`, source register `rs2`, immediate offset. -/
structure SInstr where
  name : String
  rs1 : Nat
  rs2 : Nat
  imm : Nat
deriving DecidableEq

/-- An I-type load instruction as produced by the builder: mnemonic,
destination register `rd`, base register `rs1`, immediate offset. -/
structure LInstr where
  name : String
  rd : Nat
  rs1 : Nat
  imm : Nat
deriving DecidableEq

/-- `InstructionBuilder.build_random_s_instruction` (builder.py:128-138):
random store with `rs1 = data_reg` and immediate
`align(randint(0, min(data_size, 0x7FF)), alignment(name))`.
`name_draw`, `reg_draw`, `imm_draw` are the random draws. -/
def build_random_s_instruction (registers : List Nat)
    (data_reg data_size name_draw reg_draw imm_draw : Nat) : SInstr :=
  let name := S_INSTRUCTIONS.getD (name_draw % S_INSTRUCTIONS.length) ""
  let rs1 := data_reg
  let rs2 := registers.getD (reg_draw % registers.length) 0
  let alignment := (define_memory_access_alignment name).getD 0
  let imm := align (imm_draw % (min data_size 0x7FF + 1)) alignment
  { name := name, rs1 := rs1, rs2 := rs2, imm := imm }

/-- `InstructionBuilder.build_random_l_instruction` (builder.py:140-150):
random load with `rs1 = data_reg` and immediate
`align(randint(0, min(data_size, 0x7FF)), alignment(name))`. -/
def build_random_l_instruction (registers : List Nat)
    (data_reg data_size name_draw reg_draw imm_draw : Nat) : LInstr :=
  let name := I_INSTRUCTIONS_LOAD.getD (name_draw % I_INSTRUCTIONS_LOAD.length) ""
  let rd := registers.getD (reg_draw % registers.length) 0
  let rs1 := data_reg
  let alignment := (define_memory_access_alignment name).getD 0
  let imm := align (imm_draw % (min data_size 0x7FF + 1)) alignment
  { name := name, rd := rd, rs1 := rs1, imm := imm }

/-- The width of the memory access of each store/load mnemonic, as the
claim states it: 1 for `b`, 2 for `h`, 4 for `w`, 8 for `d`. -/
def access_width : String → Option Nat
  | "sb" => some 1
  | "sh" => some 2
  | "sw" => some 4
  | "sd" => some 8
  | "lb" => some 1
  | "lbu" => some 1
  | "lh" => some 2
  | "lhu" => some 2
  | "ld" => some 8
  | _ => none

theorem align_le (v a : Nat) : align v a ≤ v := Nat.div_mul_le_self v a

theorem align_dvd (v a : Nat) : a ∣ align v a := dvd_mul_left a (v / a)

theorem imm_draw_le (data_size imm_draw : Nat) :
    imm_draw % (min data_size 0x7FF + 1) ≤ min data_size 0x7FF := by
  have := Nat.mod_lt imm_draw (y := min data_size 0x7FF + 1) (by omega)
  omega

/-- For every store mnemonic, the claim's access width agrees with the
alignment `define_memory_access_alignment` computes from the name. -/
theorem s_instruction_widths :
    ∀ name ∈ S_INSTRUCTIONS, ∃ w, access_width name = some w ∧
      define_memory_access_alignment name = some w := by decide

/-- For every load mnemonic, the claim's access width agrees with the
alignment `define_memory_access_alignment` computes from the name. -/
theorem l_instruction_widths :
    ∀ name ∈ I_INSTRUCTIONS_LOAD, ∃ w, access_width name = some w ∧
      define_memory_access_alignment name = some w := by decide

/-- C3: every store built by `build_random_s_instruction` and every load
built by `build_random_l_instruction` uses `data_reg` as the base
register and an immediate offset in `[0, min(data_size, 0x7FF)]` that is
a multiple of the width of the memory access of its mnemonic, so every
generated memory access lies inside the allocated data page. -/
theorem build_random_mem_access_safe (registers : List Nat)
    (data_reg data_size ns rs is nl rl il : Nat) :
    ((build_random_s_instruction registers data_reg data_size ns rs is).rs1
        = data_reg ∧
      (build_random_s_instruction registers data_reg data_size ns rs is).imm
        ≤ min data_size 0x7FF ∧
      (∃ w, access_width
          (build_random_s_instruction registers data_reg data_size ns rs is).name
          = some w ∧
        w ∣ (build_random_s_instruction registers data_reg data_size ns rs is).imm)) ∧
    ((build_random_l_instruction registers data_reg data_size nl rl il).rs1
        = data_reg ∧
      (build_random_l_instruction registers data_reg data_size nl rl il).imm
        ≤ min data_size 0x7FF ∧
      (∃ w, access_width
          (build_random_l_instruction registers data_reg data_size nl rl il).name
          = some w ∧
        w ∣ (build_random_l_instruction registers data_reg data_size nl rl il).imm)) := by
  constructor
  · have hname : S_INSTRUCTIONS.getD (ns % S_INSTRUCTIONS.length) ""
        ∈ S_INSTRUCTIONS := by
      rw [List.getD_eq_getElem _ _ (Nat.mod_lt ns (by decide))]
      exact List.getElem_mem _
    obtain ⟨w, hw, ha⟩ := s_instruction_widths _ hname
    refine ⟨rfl, le_trans (align_le _ _) (imm_draw_le _ _), ⟨w, ?_, ?_⟩⟩
    · exact hw
    · show w ∣ align _ ((define_memory_access_alignment _).getD 0)
      rw [ha, Option.getD_some]
      exact align_dvd _ w
  · have hname : I_INSTRUCTIONS_LOAD.getD (nl % I_INSTRUCTIONS_LOAD.length) ""
        ∈ I_INSTRUCTIONS_LOAD := by
      rw [List.getD_eq_getElem _ _ (Nat.mod_lt nl (by decide))]
      exact List.getElem_mem _
    obtain ⟨w, hw, ha⟩ := l_instruction_widths _ hname
    refine ⟨rfl, le_trans (align_le _ _) (imm_draw_le _ _), ⟨w, ?_, ?_⟩⟩
    · exact hw
    · show w ∣ align _ ((define_memory_access_alignment _).getD 0)
      rw [ha, Option.getD_some]
      exact align_dvd _ w

/-! ## Prologue / epilogue (builder.py, build_prologue / build_epilogue)

The instructions the two builders emit (`addi`, `sd`, `ld`, `ret`) are
given their standard RV64 operational semantics over a register file of
64-bit values (`Int` reduced `% 2^64`) and a doubleword-addressed
memory.  `ret` transfers control to `ra` and leaves the register and
memory state unchanged. -/

/-- Modelled from the spec: `RA` (constants.py is not in src/), §6
register conventions: `x1 = RA`. -/
def RA : Nat := 1

/-- Modelled from the spec: `SP` (constants.py is not in src/), §6
register conventions: `x2 = SP`. -/
def SP : Nat := 2

/-- Modelled from the spec: `CALLEE_SAVED_REG` (constants.py is not in
src/), §6 register conventions: `x8..x9, x18..x27` are the callee-saved
registers `s0..s11`. -/
def CALLEE_SAVED_REG : List Nat := [8, 9, 18, 19, 20, 21, 22, 23, 24, 25, 26, 27]

/-- The instruction shapes emitted by `build_prologue` and
`build_epilogue` (builder.py:253-298). -/
inductive Instr where
  | addi (rd rs1 : Nat) (imm : Int)
  | sd (rs1 rs2 : Nat) (imm : Int)
  | ld (rd rs1 : Nat) (imm : Int)
  | ret
deriving DecidableEq

/-- Machine state: 64-bit register file and doubleword memory. -/
structure MachState where
  regs : Nat → Int
  mem : Int → Int

/-- Operational semantics of one instruction.  `addi` wraps at 64 bits;
`sd`/`ld` access memory at `regs rs1 + imm` (wrapped); `ret` only
transfers control. -/
def step (s : MachState) : Instr → MachState
  | .addi rd rs1 imm =>
      { s with regs := fun r => if r = rd then (s.regs rs1 + imm) % 2 ^ 64 else s.regs r }
  | .sd rs1 rs2 imm =>
      { s with mem := fun a => if a = (s.regs rs1 + imm) % 2 ^ 64 then s.regs rs2 else s.mem a }
  | .ld rd rs1 imm =>
      { s with regs := fun r => if r = rd then s.mem ((s.regs rs1 + imm) % 2 ^ 64) else s.regs r }
  | .ret => s

/-- Execution of a straight-line instruction sequence. -/
def exec (insts : List Instr) (s : MachState) : MachState :=
  insts.foldl step s

/-- The register an instruction writes, if any. -/
def Instr.wreg : Instr → Option Nat
  | .addi rd _ _ => some rd
  | .sd _ _ _ => none
  | .ld rd _ _ => some rd
  | .ret => none

/-- Whether an instruction writes memory. -/
def Instr.isStore : Instr → Bool
  | .sd _ _ _ => true
  | _ => false

/-- `InstructionBuilder.build_prologue` (builder.py:253-273): decrement
`sp` by `(used_s_regs + local_var_nb + contains_call) * 8`, store
`s0..s{used_s_regs-1}` at offsets `i*8`, store `ra` at offset
`used_s_regs*8` when `contains_call`. -/
def build_prologue (used_s_regs local_var_nb : Nat) (contains_call : Bool) :
    List Instr :=
  let stack_space : Nat :=
    (used_s_regs + local_var_nb + (if contains_call then 1 else 0)) * 8
  [Instr.addi SP SP (-(stack_space : Int))] ++
    (List.range used_s_regs).map
      (fun i => Instr.sd SP (CALLEE_SAVED_REG.getD i 0) ((i * 8 : Nat) : Int)) ++
    (if contains_call then
      [Instr.sd SP RA ((used_s_regs * 8 : Nat) : Int)]
    else [])

/-- `InstructionBuilder.build_epilogue` (builder.py:275-298): reload
`s0..s{used_s_regs-1}` from offsets `i*8`, reload `ra` from offset
`used_s_regs*8` when `contains_call`, increment `sp` back by
`(used_s_regs + local_var_nb + contains_call) * 8`, and `ret`. -/
def build_epilogue (used_s_regs local_var_nb : Nat) (contains_call : Bool) :
    List Instr :=
  let stack_space : Nat :=
    (used_s_regs + local_var_nb + (if contains_call then 1 else 0)) * 8
  (List.range used_s_regs).map
      (fun i => Instr.ld (CALLEE_SAVED_REG.getD i 0) SP ((i * 8 : Nat) : Int)) ++
    (if contains_call then
      [Instr.ld RA SP ((used_s_regs * 8 : Nat) : Int)]
    else []) ++
    [Instr.addi SP SP (stack_space : Int), Instr.ret]

theorem exec_append (l1 l2 : List Instr) (s : MachState) :
    exec (l1 ++ l2) s = exec l2 (exec l1 s) :=
  List.foldl_append step s l1 l2

theorem step_regs_of_wreg_ne (s : MachState) (i : Instr) (r : Nat)
    (h : i.wreg ≠ some r) : (step s i).regs r = s.regs r := by
  cases i with
  | addi rd rs1 imm =>
      have : r ≠ rd := fun hr => h (by simp [Instr.wreg, hr])
      simp [step, this]
  | sd rs1 rs2 imm => rfl
  | ld rd rs1 imm =>
      have : r ≠ rd := fun hr => h (by simp [Instr.wreg, hr])
      simp [step, this]
  | ret => rfl

theorem exec_regs_of_wreg_ne (l : List Instr) (r : Nat) :
    ∀ s : MachState, (∀ i ∈ l, i.wreg ≠ some r) →
      (exec l s).regs r = s.regs r := by
  induction l with
  | nil => intro s _; rfl
  | cons a l ih =>
      intro s h
      have ha : a.wreg ≠ some r := h a (List.mem_cons_self a l)
      have hl : ∀ i ∈ l, i.wreg ≠ some r := fun i hi => h i (List.mem_cons_of_mem a hi)
      calc (exec (a :: l) s).regs r = (exec l (step s a)).regs r := rfl
        _ = (step s a).regs r := ih (step s a) hl
        _ = s.regs r := step_regs_of_wreg_ne s a r ha

theorem step_mem_of_not_store (s : MachState) (i : Instr)
    (h : i.isStore = false) : (step s i).mem = s.mem := by
  cases i with
  | addi rd rs1 imm => rfl
  | sd rs1 rs2 imm => exact absurd h (by simp [Instr.isStore])
  | ld rd rs1 imm => rfl
  | ret => rfl

theorem exec_mem_of_not_store (l : List Instr) :
    ∀ s : MachState, (∀ i ∈ l, i.isStore = false) →
      (exec l s).mem = s.mem := by
  induction l with
  | nil => intro s _; rfl
  | cons a l ih =>
      intro s h
      have ha : a.isStore = false := h a (List.mem_cons_self a l)
      have hl : ∀ i ∈ l, i.isStore = false := fun i hi => h i (List.mem_cons_of_mem a hi)
      calc (exec (a :: l) s).mem = (exec l (step s a)).mem := rfl
        _ = (step s a).mem := ih (step s a) hl
        _ = s.mem := step_mem_of_not_store s a ha

/-- The callee-saved registers are never `ra` or `sp`. -/
theorem callee_saved_ne (i : Nat) :
    CALLEE_SAVED_REG.getD i 0 ≠ RA ∧ CALLEE_SAVED_REG.getD i 0 ≠ SP := by
  by_cases h : i < CALLEE_SAVED_REG.length
  · rw [List.getD_eq_getElem _ _ h]
    have : ∀ x ∈ CALLEE_SAVED_REG, x ≠ RA ∧ x ≠ SP := by decide
    exact this _ (List.getElem_mem _)
  · rw [List.getD_eq_default _ _ (by omega)]
    refine ⟨?_, ?_⟩ <;> simp [RA, SP]

theorem exec_cons (a : Instr) (l : List Instr) (s : MachState) :
    exec (a :: l) s = exec l (step s a) := rfl

theorem exec_nil (s : MachState) : exec [] s = s := rfl

theorem step_addi_sp (s : MachState) (imm : Int) :
    (step s (Instr.addi SP SP imm)).regs SP = (s.regs SP + imm) % 2 ^ 64 := by
  simp [step]

theorem step_addi_ra (s : MachState) (imm : Int) :
    (step s (Instr.addi SP SP imm)).regs RA = s.regs RA := by
  simp [step, RA, SP]

theorem step_sd_regs (s : MachState) (rs1 rs2 : Nat) (imm : Int) :
    (step s (Instr.sd rs1 rs2 imm)).regs = s.regs := rfl

theorem step_sd_mem_at (s : MachState) (rs1 rs2 : Nat) (imm : Int) :
    (step s (Instr.sd rs1 rs2 imm)).mem ((s.regs rs1 + imm) % 2 ^ 64)
      = s.regs rs2 := by
  show (if (s.regs rs1 + imm) % 2 ^ 64 = (s.regs rs1 + imm) % 2 ^ 64
      then _ else _) = _
  rw [if_pos rfl]

theorem step_ld_rd (s : MachState) (rd rs1 : Nat) (imm : Int) :
    (step s (Instr.ld rd rs1 imm)).regs rd
      = s.mem ((s.regs rs1 + imm) % 2 ^ 64) := by
  simp [step]

theorem step_ld_other (s : MachState) (rd rs1 : Nat) (imm : Int) (r : Nat)
    (h : r ≠ rd) : (step s (Instr.ld rd rs1 imm)).regs r = s.regs r := by
  simp [step, h]

theorem step_ret_state (s : MachState) : step s Instr.ret = s := rfl

/-- Effect of the prologue: `sp` decremented (mod `2^64`), `ra`
unchanged, and — when a call is contained — the entry `ra` stored at
offset `used_s_regs * 8` from the new `sp`. -/
theorem prologue_effect (u l : Nat) (c : Bool) (s : MachState) :
    (exec (build_prologue u l c) s).regs SP
        = (s.regs SP + -(((u + l + (if c then 1 else 0)) * 8 : Nat) : Int)) % 2 ^ 64 ∧
    (exec (build_prologue u l c) s).regs RA = s.regs RA ∧
    (c = true → (exec (build_prologue u l c) s).mem
        (((s.regs SP + -(((u + l + 1) * 8 : Nat) : Int)) % 2 ^ 64
            + ((u * 8 : Nat) : Int)) % 2 ^ 64)
        = s.regs RA) := by
  have hstores : ∀ i ∈ (List.range u).map
      (fun i => Instr.sd SP (CALLEE_SAVED_REG.getD i 0) ((i * 8 : Nat) : Int)),
      ∀ r, i.wreg ≠ some r := by
    intro i hi r
    obtain ⟨j, _, rfl⟩ := List.mem_map.mp hi
    simp [Instr.wreg]
  have hdec : ∀ (x : MachState) (r : Nat),
      (exec ((List.range u).map
        (fun i => Instr.sd SP (CALLEE_SAVED_REG.getD i 0) ((i * 8 : Nat) : Int))) x).regs r
      = x.regs r :=
    fun x r => exec_regs_of_wreg_ne _ _ _ (fun i hi => hstores i hi r)
  cases c with
  | false =>
      simp only [build_prologue, exec_append, exec_cons, exec_nil,
        Bool.false_eq_true, if_false]
      refine ⟨?_, ?_, fun h => h.elim⟩
      · rw [hdec, step_addi_sp]
      · rw [hdec, step_addi_ra]
  | true =>
      simp only [build_prologue, exec_append, exec_cons, exec_nil, if_true]
      refine ⟨?_, ?_, ?_⟩
      · rw [step_sd_regs, hdec, step_addi_sp]
      · rw [step_sd_regs, hdec, step_addi_ra]
      · intro _
        have haddr : ((s.regs SP + -(((u + l + 1) * 8 : Nat) : Int)) % 2 ^ 64
              + ((u * 8 : Nat) : Int)) % 2 ^ 64
            = ((exec ((List.range u).map (fun i =>
                Instr.sd SP (CALLEE_SAVED_REG.getD i 0) ((i * 8 : Nat) : Int)))
              (step s (Instr.addi SP SP
                (-(((u + l + 1) * 8 : Nat) : Int))))).regs SP
              + ((u * 8 : Nat) : Int)) % 2 ^ 64 := by
          rw [hdec, step_addi_sp]
        rw [haddr, step_sd_mem_at, hdec, step_addi_ra]

/-- Effect of the epilogue: `sp` incremented back (mod `2^64`); when a
call is contained `ra` is reloaded from offset `used_s_regs * 8`, else
`ra` is untouched. -/
theorem epilogue_effect (u l : Nat) (c : Bool) (t : MachState) :
    (exec (build_epilogue u l c) t).regs SP
        = (t.regs SP + (((u + l + (if c then 1 else 0)) * 8 : Nat) : Int)) % 2 ^ 64 ∧
    (c = true → (exec (build_epilogue u l c) t).regs RA
        = t.mem ((t.regs SP + ((u * 8 : Nat) : Int)) % 2 ^ 64)) ∧
    (c = false → (exec (build_epilogue u l c) t).regs RA = t.regs RA) := by
  have hloads : ∀ i ∈ (List.range u).map
      (fun i => Instr.ld (CALLEE_SAVED_REG.getD i 0) SP ((i * 8 : Nat) : Int)),
      i.wreg ≠ some SP ∧ i.wreg ≠ some RA ∧ i.isStore = false := by
    intro i hi
    obtain ⟨j, _, rfl⟩ := List.mem_map.mp hi
    refine ⟨?_, ?_, rfl⟩
    · intro h
      exact (callee_saved_ne j).2 (Option.some.inj h)
    · intro h
      exact (callee_saved_ne j).1 (Option.some.inj h)
  have hT1sp : (exec ((List.range u).map
      (fun i => Instr.ld (CALLEE_SAVED_REG.getD i 0) SP ((i * 8 : Nat) : Int))) t).regs SP
      = t.regs SP :=
    exec_regs_of_wreg_ne _ _ _ (fun i hi => (hloads i hi).1)
  have hT1ra : (exec ((List.range u).map
      (fun i => Instr.ld (CALLEE_SAVED_REG.getD i 0) SP ((i * 8 : Nat) : Int))) t).regs RA
      = t.regs RA :=
    exec_regs_of_wreg_ne _ _ _ (fun i hi => (hloads i hi).2.1)
  have hT1mem : (exec ((List.range u).map
      (fun i => Instr.ld (CALLEE_SAVED_REG.getD i 0) SP ((i * 8 : Nat) : Int))) t).mem
      = t.mem :=
    exec_mem_of_not_store _ _ (fun i hi => (hloads i hi).2.2)
  have hra_ne_sp : RA ≠ SP := by decide
  have hsp_ne_ra : SP ≠ RA := by decide
  cases c with
  | false =>
      simp only [build_epilogue, exec_append, exec_cons, exec_nil,
        Bool.false_eq_true, if_false]
      refine ⟨?_, fun h => h.elim, ?_⟩
      · rw [step_ret_state, step_addi_sp, hT1sp]
      · intro _
        rw [step_ret_state, step_addi_ra, hT1ra]
  | true =>
      simp only [build_epilogue, exec_append, exec_cons, exec_nil, if_true]
      refine ⟨?_, ?_, fun h => Bool.noConfusion h⟩
      · rw [step_ret_state, step_addi_sp,
          step_ld_other _ _ _ _ _ hsp_ne_ra, hT1sp]
      · intro _
        rw [step_ret_state, step_addi_ra, step_ld_rd, hT1sp, hT1mem]

/-- C8: for all `used_s_regs ≤ 12`, `local_var_nb` and `contains_call`,
executing `build_prologue` followed by `build_epilogue` from any
well-formed machine state restores `sp` and `ra` to their entry values
bit-for-bit, and the epilogue ends with `ret`: the epilogue exactly
reverses the prologue (same registers, same offsets, same stack
adjustment). -/
theorem prologue_epilogue_symmetric (u l : Nat) (c : Bool) (s : MachState)
    (hu : u ≤ 12) (hsp0 : 0 ≤ s.regs SP) (hsp1 : s.regs SP < 2 ^ 64) :
    (exec (build_prologue u l c ++ build_epilogue u l c) s).regs SP = s.regs SP ∧
    (exec (build_prologue u l c ++ build_epilogue u l c) s).regs RA = s.regs RA ∧
    (∃ pre, build_epilogue u l c = pre ++ [Instr.ret]) := by
  rw [exec_append]
  obtain ⟨hpsp, hpra, hpmem⟩ := prologue_effect u l c s
  obtain ⟨hesp, hera, hera0⟩ :=
    epilogue_effect u l c (exec (build_prologue u l c) s)
  refine ⟨?_, ?_, ?_⟩
  · rw [hesp, hpsp]
    omega
  · cases c with
    | false => rw [hera0 rfl, hpra]
    | true =>
        rw [hera rfl, hpsp]
        exact hpmem rfl
  · refine ⟨(List.range u).map
        (fun i => Instr.ld (CALLEE_SAVED_REG.getD i 0) SP ((i * 8 : Nat) : Int)) ++
      (if c then [Instr.ld RA SP ((u * 8 : Nat) : Int)] else []) ++
      [Instr.addi SP SP
        (((u + l + (if c then 1 else 0)) * 8 : Nat) : Int)], ?_⟩
    simp [build_epilogue, List.append_assoc]

/-- Witness for `prologue_epilogue_symmetric` at `used_s_regs = 4`,
`local_var_nb = 2`, `contains_call = true` (scenario S6) from a concrete
machine state. -/
theorem prologue_epilogue_symmetric_witness :
    (4 ≤ 12 ∧ 0 ≤ (fun r => (100 + r : Int)) SP ∧
      (fun r => (100 + r : Int)) SP < 2 ^ 64) ∧
    ((exec (build_prologue 4 2 true ++ build_epilogue 4 2 true)
        ⟨fun r => (100 + r : Int), fun _ => 0⟩).regs SP
        = (fun r => (100 + r : Int)) SP ∧
      (exec (build_prologue 4 2 true ++ build_epilogue 4 2 true)
        ⟨fun r => (100 + r : Int), fun _ => 0⟩).regs RA
        = (fun r => (100 + r : Int)) RA ∧
      (∃ pre, build_epilogue 4 2 true = pre ++ [Instr.ret])) :=
  ⟨⟨by omega, by decide, by decide⟩,
    prologue_epilogue_symmetric 4 2 true ⟨fun r => (100 + r : Int), fun _ => 0⟩
      (by omega) (by decide) (by decide)⟩

/-! ## Generator (generator.py): addresses, element sampling, phase 1

`helpers.py`, `method.py` and `pic.py` are not in src/; the parts of
them the claims need are modelled from the spec and marked as such.
Random draws (truncated normals, Poisson samples, uniform choices) are
passed as explicit parameters, as in the builder section. -/

/-- The address fields `Generator.__init__` stores. -/
structure GenAddresses where
  interpreter_start_address : Nat
  jit_start_address : Nat
deriving DecidableEq

/-- `Generator.__init__` address handling (generator.py:86-97): raises
`WrongAddress` (modelled as `none`) when
`interpreter_start_address > jit_start_address`, otherwise stores both
addresses aligned to 4. -/
def generator_init_addresses (interpreter_start_address jit_start_address : Nat) :
    Option GenAddresses :=
  if interpreter_start_address > jit_start_address then none
  else some { interpreter_start_address := align interpreter_start_address 4,
              jit_start_address := align jit_start_address 4 }

/-- A generated JIT method.  Modelled from the spec: `Method`
(method.py is not in src/), §3 data model, keeping the fields the
claims refer to. -/
structure MethodD where
  address : Nat
  body_size : Nat
  call_number : Nat
  call_depth : Nat
deriving DecidableEq, Inhabited

/-- The instruction count of a non-empty method.  Modelled from the
spec: §3 `total_size = prologue + body + epilogue` and §4.3 "emit
prologue for `used_s_regs = 10`, `contains_call = (call_number > 0)`";
builder.py (in src/) gives the prologue `1 + used_s_regs + contains_call`
instructions and the epilogue `used_s_regs + contains_call + 2`. -/
def MethodD.total_size_val (m : MethodD) : Nat :=
  (1 + 10 + (if 0 < m.call_number then 1 else 0)) + m.body_size +
    (10 + (if 0 < m.call_number then 1 else 0) + 2)

/-- Modelled from the spec: `Method.total_size` (method.py is not in
src/); §7 `EmptySection` — "element sized to zero instructions given
the variation draw" — is modelled as `none` for a zero `body_size`. -/
def MethodD.total_size (m : MethodD) : Option Nat :=
  if m.body_size = 0 then none else some m.total_size_val

/-- `Generator.add_method` (generator.py:175-225).  `body_size` is the
sampled `ceil(jit_method_size * (1 ± size_variation))`;
`call_nb_draw` abstracts `trunc(call_occupation * max_call_nb)`
(a value in `[0, max_call_nb]`, enforced by the clamp);
`poisson_draw` is the Poisson sample used for the call depth
(helpers.py is not in src/; §4.6: `call_depth ← Poisson(call_depth_mean)
if call_number > 0 else 0`, and a Poisson sample can be any natural
number, including 0). -/
def add_method (address body_size call_nb_draw poisson_draw call_size : Nat) :
    MethodD :=
  { address := address, body_size := body_size,
    call_number := min call_nb_draw (body_size / call_size),
    call_depth :=
      if 0 < min call_nb_draw (body_size / call_size) then poisson_draw else 0 }

/-- The sampled shape of one phase-1 element: a method draw
`(body_size, call_nb_draw, poisson_draw)` or a PIC with one such draw
per case (case count already clamped per generator.py:259-262). -/
inductive EltDescr where
  | method (body_size call_nb_draw poisson_draw : Nat)
  | pic (cases : List (Nat × Nat × Nat))
deriving DecidableEq

/-- A constructed JIT element.  Modelled from the spec: `PIC`
(pic.py is not in src/) owns one method per case (§4.4); the per-case
method addresses inside the PIC are not tracked, no claim refers to
them. -/
inductive JitElt where
  | method (m : MethodD)
  | pic (methods : List MethodD)
deriving DecidableEq

/-- `Generator.add_pic` (generator.py:259-286): synthesize one method
per case with independently sampled draws. -/
def add_pic (address call_size : Nat) (cases : List (Nat × Nat × Nat)) :
    List MethodD :=
  cases.map (fun d => add_method address d.1 d.2.1 d.2.2 call_size)

/-- Construct the element an iteration of the phase-1 loop adds at the
cursor (generator.py:313-320). -/
def mk_elt (address call_size : Nat) : EltDescr → JitElt
  | .method b cd pd => .method (add_method address b cd pd call_size)
  | .pic cases => .pic (add_pic address call_size cases)

/-- The methods a JIT element contributes to the call-depth dictionary
(generator.py:222-223 and 282-283). -/
def JitElt.methods : JitElt → List MethodD
  | .method m => [m]
  | .pic ms => ms

/-- Modelled from the spec: `method_nb` (method.py / pic.py are not in
src/); a method counts 1, a PIC counts one per case (§4.6 phase 1). -/
def JitElt.method_nb : JitElt → Nat
  | .method _ => 1
  | .pic ms => ms.length

/-- Modelled from the spec: element `total_size` (method.py / pic.py
are not in src/); §3: a PIC's total is `3*case_number + Σ methods[i]
.total_size`; any zero-sized method raises `EmptySection` (`none`). -/
def JitElt.total_size : JitElt → Option Nat
  | .method m => m.total_size
  | .pic ms =>
      if ms.any (fun m => m.body_size = 0) then none
      else some (3 * ms.length + (ms.map MethodD.total_size_val).sum)

/-- The state threaded through the phase-1 loop: address cursor, method
count, and the call-depth dictionary (its Python `defaultdict` of lists
keyed by depth is flattened to insertion-ordered `(depth, method)`
pairs). -/
structure FillState where
  current_address : Nat
  current_method_count : Nat
  call_depth_dict : List (Nat × MethodD)
deriving DecidableEq

/-- The `while current_method_count < jit_nb_methods` loop of
`Generator.fill_jit_code` (generator.py:313-332), consuming one sampled
element descriptor per iteration; `none` models the propagated
`EmptySection`. -/
def fill_loop (nb call_size : Nat) : List EltDescr → FillState → Option FillState
  | [], st => some st
  | d :: ds, st =>
      if st.current_method_count < nb then
        match (mk_elt st.current_address call_size d).total_size with
        | none => none
        | some ts =>
            fill_loop nb call_size ds
              { current_address := st.current_address + ts * 4,
                current_method_count :=
                  st.current_method_count + (mk_elt st.current_address call_size d).method_nb,
                call_depth_dict := st.call_depth_dict ++
                  ((mk_elt st.current_address call_size d).methods.map
                    (fun m => (m.call_depth, m))) }
      else some st

/-- `Generator.fill_jit_code` (generator.py:291-333): place a first leaf
method (`call_number = 0`, `call_depth = 0`, generator.py:227-257) at
the start address, advance the cursor by its `total_size * 4`, then run
the element loop. -/
def fill_jit_code (start_address nb call_size leaf_body_size : Nat)
    (descrs : List EltDescr) : Option FillState :=
  match MethodD.total_size
      { address := start_address, body_size := leaf_body_size,
        call_number := 0, call_depth := 0 } with
  | none => none
  | some ts =>
      fill_loop nb call_size descrs
        { current_address := start_address + ts * 4,
          current_method_count := 1,
          call_depth_dict := [(0,
            { address := start_address, body_size := leaf_body_size,
              call_number := 0, call_depth := 0 })] }

/-- The flattened candidate pool of `Generator.extract_callees`
(generator.py:335-345): all methods stored under a depth strictly
smaller than `call_depth`. -/
def possible_callees (dict : List (Nat × MethodD)) (call_depth : Nat) :
    List MethodD :=
  (dict.filter (fun p => p.1 < call_depth)).map (fun p => p.2)

/-- `random.choices(population, k)`: `k` draws with replacement; the
draw function is abstracted by `pick`, reduced modulo the population
size; an empty population with `k > 0` raises `IndexError`, modelled as
`none`. -/
def random_choices (pool : List MethodD) (k : Nat) (pick : Nat → Nat) :
    Option (List MethodD) :=
  if pool.isEmpty ∧ 0 < k then none
  else some ((List.range k).map (fun i => pool.getD (pick i % pool.length) default))

/-- `Generator.extract_callees` (generator.py:335-345). -/
def extract_callees (dict : List (Nat × MethodD)) (call_depth nb : Nat)
    (pick : Nat → Nat) : Option (List MethodD) :=
  random_choices (possible_callees dict call_depth) nb pick

/-- The call-depth dictionary stores every method under its own
`call_depth` — the invariant the generator maintains at every insertion
(generator.py:223, 255, 282-283). -/
def DictWF (dict : List (Nat × MethodD)) : Prop :=
  ∀ p ∈ dict, p.2.call_depth = p.1

/-- Modelled from the spec: `Dataminer.generate_data("zeroes", size)`
(dataminer.py is not in src/); §4.6/§6: a zero-filled byte string of
the given size. -/
def generate_data_zeroes (size : Nat) : List Nat :=
  List.replicate size 0

/-- `Generator.generate_shadowstack_binary` (generator.py:504-508): the
base generator emits `generate_data("zeroes", 8)` — a hardcoded 8-byte
zero block; it has no configurable shadow-stack size. -/
def generate_shadowstack_binary : List Nat :=
  generate_data_zeroes 8

/-- `RIMIShadowStackTrampolineGenerator.generate_shadowstack_binary`
(rimi_generator.py:80-84): zeroes of the configured
`shadow_stack_size`. -/
def rimi_generate_shadowstack_binary (shadow_stack_size : Nat) : List Nat :=
  generate_data_zeroes shadow_stack_size

/-- C6: the code accepts equal start addresses.  With
`interpreter_start_address = jit_start_address = 0x1000` the
constructor raises no `WrongAddress` (the check uses `>`, not `>=`) and
stores two equal addresses, contradicting the claim — and the code's
own error message, which demands the interpreter start be strictly
lower than the JIT start. -/
theorem generator_init_equal_addresses_accepted :
    generator_init_addresses 0x1000 0x1000
      = some { interpreter_start_address := 0x1000, jit_start_address := 0x1000 } ∧
    generator_init_addresses 0x1000 0x1000 ≠ none := by decide

/-- C9: for every configured `shadow_stack_size`, the RIMI generator's
`generate_shadowstack_binary` output is zero-filled of exactly that
length (the base generator, which has no configured shadow-stack size,
always emits the 8-byte zero block `generate_data("zeroes", 8)`). -/
theorem shadowstack_binary_zero_filled (shadow_stack_size : Nat) :
    (rimi_generate_shadowstack_binary shadow_stack_size).length
      = shadow_stack_size ∧
    (∀ b ∈ rimi_generate_shadowstack_binary shadow_stack_size, b = 0) ∧
    generate_shadowstack_binary = List.replicate 8 0 := by
  refine ⟨List.length_replicate _ _, ?_, rfl⟩
  intro b hb
  exact List.eq_of_mem_replicate hb

/-- C5 (counterexample): a method sampled with one call slot
(`call_nb_draw = 1`, `body_size = 6`, `call_size = 3`) and a Poisson
draw of 0 has `call_number = 1` but `call_depth = 0`: the claimed "iff"
fails in the direction `call_number ≥ 1 → call_depth ≥ 1`. -/
theorem add_method_depth_iff_fails :
    1 ≤ (add_method 0 6 1 0 3).call_number ∧
    ¬(1 ≤ (add_method 0 6 1 0 3).call_depth) := by decide

/-- C5 (amended): for every method created by `add_method`,
`call_depth ≥ 1` implies `call_number ≥ 1`, and a method with no calls
has `call_depth = 0`; the converse direction of the claimed "iff"
(`call_number ≥ 1 → call_depth ≥ 1`) does not hold because the Poisson
draw can be 0. -/
theorem add_method_depth_implies_calls (a b cd pd cs : Nat) :
    (1 ≤ (add_method a b cd pd cs).call_depth →
      1 ≤ (add_method a b cd pd cs).call_number) ∧
    ((add_method a b cd pd cs).call_number = 0 →
      (add_method a b cd pd cs).call_depth = 0) := by
  simp only [add_method]
  constructor
  · intro h
    by_cases hc : 0 < min cd (b / cs)
    · omega
    · rw [if_neg hc] at h
      omega
  · intro h
    rw [h, if_neg (by omega)]

/-- Witness for `add_method_depth_implies_calls` at a method with two
call slots and Poisson draw 3. -/
theorem add_method_depth_implies_calls_witness :
    1 ≤ (add_method 0 6 2 3 3).call_depth ∧
    1 ≤ (add_method 0 6 2 3 3).call_number :=
  ⟨by decide, (add_method_depth_implies_calls 0 6 2 3 3).1 (by decide)⟩

/-- C2: every element of the list `extract_callees` returns has
`call_depth` strictly smaller than the `call_depth` argument (under the
dictionary invariant the generator maintains at every insertion), and
consequently every call graph whose edges are produced this way —
callee depth strictly below caller depth — is acyclic: no method is in
its own transitive callee closure. -/
theorem extract_callees_acyclic (dict : List (Nat × MethodD)) (d nb : Nat)
    (pick : Nat → Nat) (cs : List MethodD) (r : MethodD → MethodD → Prop)
    (hwf : DictWF dict) (hx : extract_callees dict d nb pick = some cs)
    (hr : ∀ a b, r a b → b.call_depth < a.call_depth) :
    (∀ m ∈ cs, m.call_depth < d) ∧ (∀ m, ¬ Relation.TransGen r m m) := by
  constructor
  · intro m hm
    unfold extract_callees random_choices at hx
    by_cases he : (possible_callees dict d).isEmpty = true ∧ 0 < nb
    · rw [if_pos he] at hx
      cases hx
    · rw [if_neg he] at hx
      have hcs : cs = (List.range nb).map (fun i =>
          (possible_callees dict d).getD
            (pick i % (possible_callees dict d).length) default) :=
        (Option.some.inj hx).symm
      rw [hcs] at hm
      obtain ⟨i, hi, rfl⟩ := List.mem_map.mp hm
      have hne : possible_callees dict d ≠ [] := by
        intro hemp
        rcases Nat.eq_zero_or_pos nb with h0 | hpos
        · rw [h0] at hi
          exact absurd (List.mem_range.mp hi) (by omega)
        · exact he ⟨by rw [hemp]; rfl, hpos⟩
      have hlen : 0 < (possible_callees dict d).length :=
        List.length_pos.mpr hne
      have hmem : (possible_callees dict d).getD
          (pick i % (possible_callees dict d).length) default
          ∈ possible_callees dict d := by
        rw [List.getD_eq_getElem _ _ (Nat.mod_lt _ hlen)]
        exact List.getElem_mem _
      unfold possible_callees at hmem
      obtain ⟨p, hp, hpe⟩ := List.mem_map.mp hmem
      obtain ⟨hpd, hplt⟩ := List.mem_filter.mp hp
      have hgoal : p.2.call_depth < d := by
        rw [hwf p hpd]
        exact of_decide_eq_true hplt
      rw [hpe] at hgoal
      exact hgoal
  · have key : ∀ a b, Relation.TransGen r a b → b.call_depth < a.call_depth := by
      intro a b h
      induction h with
      | single hab => exact hr _ _ hab
      | tail _ hbc ih => exact lt_trans (hr _ _ hbc) ih
    intro m hm
    exact lt_irrefl _ (key m m hm)

/-- Witness for `extract_callees_acyclic` on a one-entry dictionary. -/
theorem extract_callees_acyclic_witness :
    (DictWF [(0, (⟨0, 4, 0, 0⟩ : MethodD))] ∧
      extract_callees [(0, (⟨0, 4, 0, 0⟩ : MethodD))] 1 2 (fun i => i)
        = some [⟨0, 4, 0, 0⟩, ⟨0, 4, 0, 0⟩]) ∧
    ((∀ m ∈ [(⟨0, 4, 0, 0⟩ : MethodD), ⟨0, 4, 0, 0⟩], m.call_depth < 1) ∧
      (∀ m : MethodD, ¬ Relation.TransGen (fun _ _ => False) m m)) :=
  ⟨⟨fun p hp => by rcases List.mem_singleton.mp hp with rfl; rfl, by decide⟩,
    extract_callees_acyclic [(0, ⟨0, 4, 0, 0⟩)] 1 2 (fun i => i)
      [⟨0, 4, 0, 0⟩, ⟨0, 4, 0, 0⟩] (fun _ _ => False)
      (fun p hp => by rcases List.mem_singleton.mp hp with rfl; rfl)
      (by decide) (fun a b h => h.elim)⟩

theorem fill_loop_cursor_mono (nb cs : Nat) (ds : List EltDescr) :
    ∀ st res, fill_loop nb cs ds st = some res →
      st.current_address ≤ res.current_address := by
  induction ds with
  | nil =>
      intro st res h
      cases h
      exact Nat.le_refl _
  | cons d ds ih =>
      intro st res h
      simp only [fill_loop] at h
      split at h
      · split at h
        · cases h
        · have h2 : st.current_address + _ * 4 ≤ res.current_address := ih _ _ h
          omega
      · cases h
        exact Nat.le_refl _

/-- C4 (counterexample): with `jit_size = 40` bytes and
`jit_nb_methods = 1` (so `jit_method_size = 40`) and zero size
variation, the single leaf method has body 40 but total size
`11 + 40 + 12 = 63` instructions = 252 bytes, and `fill_jit_code`
returns with the cursor at `jit_start + 252 > jit_start + jit_size`
without raising anything: the budget bound is not enforced. -/
theorem fill_jit_code_overruns_budget :
    fill_jit_code 0x2000 1 3 40 []
      = some { current_address := 0x2000 + 252, current_method_count := 1,
               call_depth_dict := [(0, ⟨0x2000, 40, 0, 0⟩)] } ∧
    ¬(0x2000 + 252 ≤ 0x2000 + 40) := by decide

/-- C4 (amended): in `fill_jit_code` the cursor advances by exactly
`total_size * 4` per laid-out element and never decreases, and an
element sized to zero instructions raises `EmptySection`; but no check
against `jit_start_address + jit_size` is performed, so
`current_address ≤ jit_start_address + jit_size` is not an invariant of
the loop (see the counterexample). -/
theorem fill_jit_code_cursor_advance :
    (∀ (nb call_size : Nat) (d : EltDescr) (ds : List EltDescr)
        (st : FillState) (ts : Nat),
      st.current_method_count < nb →
      (mk_elt st.current_address call_size d).total_size = some ts →
      fill_loop nb call_size (d :: ds) st = fill_loop nb call_size ds
        { current_address := st.current_address + ts * 4,
          current_method_count := st.current_method_count
            + (mk_elt st.current_address call_size d).method_nb,
          call_depth_dict := st.call_depth_dict ++
            ((mk_elt st.current_address call_size d).methods.map
              (fun m => (m.call_depth, m))) }) ∧
    (∀ (nb call_size : Nat) (ds : List EltDescr) (st res : FillState),
      fill_loop nb call_size ds st = some res →
      st.current_address ≤ res.current_address) ∧
    (∀ (start nb call_size leaf : Nat) (ds : List EltDescr) (res : FillState),
      fill_jit_code start nb call_size leaf ds = some res →
      start ≤ res.current_address) ∧
    (∀ m : MethodD, m.body_size = 0 → m.total_size = none) := by
  refine ⟨?_, ?_, ?_, ?_⟩
  · intro nb call_size d ds st ts hlt hts
    simp only [fill_loop, if_pos hlt, hts]
  · intro nb call_size ds st res h
    exact fill_loop_cursor_mono nb call_size ds st res h
  · intro start nb call_size leaf ds res h
    unfold fill_jit_code at h
    cases hts : MethodD.total_size
        { address := start, body_size := leaf,
          call_number := 0, call_depth := 0 } with
    | none => rw [hts] at h; cases h
    | some ts =>
        rw [hts] at h
        have h2 : start + ts * 4 ≤ res.current_address :=
          fill_loop_cursor_mono _ _ _ _ _ h
        omega
  · intro m hm
    simp [MethodD.total_size, hm]

/-- Witness for `fill_jit_code_cursor_advance`: one loop step at a
concrete state, and the cursor bound on a concrete successful run. -/
theorem fill_jit_code_cursor_advance_witness :
    (((⟨0x2000, 1, []⟩ : FillState).current_method_count < 2 ∧
      (mk_elt 0x2000 3 (EltDescr.method 5 0 0)).total_size = some 28) ∧
    fill_loop 2 3 [EltDescr.method 5 0 0] ⟨0x2000, 1, []⟩
      = fill_loop 2 3 []
        { current_address := (⟨0x2000, 1, []⟩ : FillState).current_address + 28 * 4,
          current_method_count := (⟨0x2000, 1, []⟩ : FillState).current_method_count
            + (mk_elt 0x2000 3 (EltDescr.method 5 0 0)).method_nb,
          call_depth_dict := (⟨0x2000, 1, []⟩ : FillState).call_depth_dict ++
            ((mk_elt 0x2000 3 (EltDescr.method 5 0 0)).methods.map
              (fun m => (m.call_depth, m))) }) :=
  ⟨⟨by decide, by decide⟩,
    fill_jit_code_cursor_advance.1 2 3 (EltDescr.method 5 0 0) []
      ⟨0x2000, 1, []⟩ 28 (by decide) (by decide)⟩

theorem fill_loop_dict_prefix (nb cs : Nat) (ds : List EltDescr) :
    ∀ st res, fill_loop nb cs ds st = some res →
      ∃ tail, res.call_depth_dict = st.call_depth_dict ++ tail := by
  induction ds with
  | nil =>
      intro st res h
      cases h
      exact ⟨[], (List.append_nil _).symm⟩
  | cons d ds ih =>
      intro st res h
      simp only [fill_loop] at h
      split at h
      · split at h
        · cases h
        · obtain ⟨tail, htail⟩ := ih _ _ h
          have htail2 : res.call_depth_dict = (st.call_depth_dict ++
              ((mk_elt st.current_address cs d).methods.map
                (fun m => (m.call_depth, m)))) ++ tail := htail
          refine ⟨(mk_elt st.current_address cs d).methods.map
              (fun m => (m.call_depth, m)) ++ tail, ?_⟩
          rw [htail2, List.append_assoc]
      · cases h
        exact ⟨[], (List.append_nil _).symm⟩

/-- C10: whenever phase 1 succeeds, the first JIT element is the leaf
method (`call_number = 0`, `call_depth = 0`) placed before every other
element, so it heads the call-depth dictionary; hence for every
`call_depth ≥ 1` — every method patched in phase 2 — the pool of
strictly-smaller-depth candidates consulted by `extract_callees` is
non-empty and the empty-population `IndexError` is unreachable. -/
theorem fill_jit_code_first_leaf (start nb call_size leaf : Nat)
    (ds : List EltDescr) (res : FillState)
    (h : fill_jit_code start nb call_size leaf ds = some res) :
    res.call_depth_dict.head? = some (0,
      { address := start, body_size := leaf,
        call_number := 0, call_depth := 0 }) ∧
    (∀ d k pick, 1 ≤ d →
      extract_callees res.call_depth_dict d k pick ≠ none) := by
  unfold fill_jit_code at h
  cases hts : MethodD.total_size
      { address := start, body_size := leaf,
        call_number := 0, call_depth := 0 } with
  | none => rw [hts] at h; cases h
  | some ts =>
      rw [hts] at h
      obtain ⟨tail, htail⟩ := fill_loop_dict_prefix _ _ _ _ _ h
      have htail2 : res.call_depth_dict = (0,
          { address := start, body_size := leaf,
            call_number := 0, call_depth := 0 }) :: tail := htail
      constructor
      · rw [htail2]
        rfl
      · intro d k pick hd
        have hpool : possible_callees res.call_depth_dict d
            = (⟨start, leaf, 0, 0⟩ : MethodD) ::
              (tail.filter (fun p => p.1 < d)).map (fun p => p.2) := by
          rw [htail2]
          unfold possible_callees
          rw [List.filter_cons, if_pos (by simpa using hd), List.map_cons]
        unfold extract_callees random_choices
        rw [hpool, if_neg (by simp)]
        simp

/-- Witness for `fill_jit_code_first_leaf` on a concrete two-element
run. -/
theorem fill_jit_code_first_leaf_witness :
    fill_jit_code 0x2000 2 3 4 [EltDescr.method 5 1 2]
      = some { current_address := 0x2000 + 228, current_method_count := 2,
               call_depth_dict := [(0, ⟨0x2000, 4, 0, 0⟩),
                 (2, ⟨0x2000 + 108, 5, 1, 2⟩)] } ∧
    (({ current_address := 0x2000 + 228, current_method_count := 2,
        call_depth_dict := [(0, ⟨0x2000, 4, 0, 0⟩),
          (2, ⟨0x2000 + 108, 5, 1, 2⟩)] } : FillState).call_depth_dict.head?
        = some (0, (⟨0x2000, 4, 0, 0⟩ : MethodD)) ∧
      (∀ d k pick, 1 ≤ d →
        extract_callees ((⟨0x2000 + 228, 2, [(0, ⟨0x2000, 4, 0, 0⟩),
            (2, ⟨0x2000 + 108, 5, 1, 2⟩)]⟩ : FillState)).call_depth_dict
          d k pick ≠ none)) :=
  ⟨by decide,
    fill_jit_code_first_leaf 0x2000 2 3 4 [EltDescr.method 5 1 2] _ (by decide)⟩

end Gigue
